import Mathlib

/-!
Shallow embedding of the ceo-buys-screener pipeline.

The embedding follows the source files of the repository:
  analysis_tools/candidate_finder.py  (CandidateFinder.filter_by_price_drop,
                                       CandidateFinder.filter_by_ceo_buys,
                                       CandidateFinder.find_candidates)
  utils/df_utils.py                   (standardize_ohlcv_dataframe)
  main.py                             (the plotting guard)

Modelling conventions:
  - pandas DataFrames of daily prices are modelled by `PriceDF`: the list of
    rows (only the close column is ever read by the screener) together with
    the optional constant `price_drop` column that `filter_by_price_drop`
    assigns in place.
  - insider-trade DataFrames are modelled by `TradeDF`, a list of
    `InsiderTx` records carrying the four fields the screener reads.
  - python floats are modelled by `ℚ`.
  - `str.contains(..., case=False)` is modelled by `containsCI`,
    a case-insensitive substring test on the character lists.
  - the in-place mutation `df['price_drop'] = price_drop` is modelled by
    returning the updated input mapping alongside the filtered mapping.
  - the network fetches of `find_candidates` are parameters: the pipeline is
    a function of the fetched price mapping and of the insider-trade source
    (a symbol-indexed association list, the gateway's response).
-/

namespace CeoBuys

/-! ## Character-level string helpers -/

/-- The characters of a string, lowercased (python `str.lower` /
pandas `case=False` folding). -/
def lowerChars (s : String) : List Char := s.data.map Char.toLower

/-- Whether the first character list is a prefix of the second. -/
def listPrefixOf : List Char → List Char → Bool
  | [], _ => true
  | _ :: _, [] => false
  | a :: as, b :: bs => a == b && listPrefixOf as bs

/-- Whether the second character list occurs contiguously inside the first. -/
def listContains : List Char → List Char → Bool
  | [], pat => pat.isEmpty
  | h :: t, pat => listPrefixOf pat (h :: t) || listContains t pat

/-- Case-insensitive substring test: pandas
`series.str.contains(pat, case=False)` on one entry. -/
def containsCI (s pat : String) : Bool :=
  listContains (lowerChars s) (lowerChars pat)

/-- Code-point lexicographic comparison of character lists
(python string `<`). -/
def charsLt : List Char → List Char → Bool
  | [], [] => false
  | [], _ :: _ => true
  | _ :: _, [] => false
  | a :: as, b :: bs =>
      if a.toNat < b.toNat then true
      else if b.toNat < a.toNat then false
      else charsLt as bs

/-- Code-point lexicographic comparison of strings. -/
def strLt (s t : String) : Bool := charsLt s.data t.data

/-- Insert a string into a sorted list of strings (ascending). -/
def insertSorted (s : String) : List String → List String
  | [] => [s]
  | t :: ts => if strLt s t then s :: t :: ts else t :: insertSorted s ts

/-- Insertion sort of strings, ascending (pandas `groupby` sorts its keys). -/
def sortStrings : List String → List String
  | [] => []
  | s :: t => insertSorted s (sortStrings t)

/-- First-occurrence deduplication keeping track of already seen keys. -/
def dedupAux (seen : List String) : List String → List String
  | [] => []
  | s :: t => if seen.contains s then dedupAux seen t else s :: dedupAux (s :: seen) t

/-- The distinct elements of a list of strings, in first-occurrence order. -/
def dedupKeys (l : List String) : List String := dedupAux [] l

/-! ## Data model of the screener -/

/-- One daily price bar.  The screener reads only the `close` column of the
normalized OHLCV frame, so only that column is carried. -/
structure PriceRow where
  close : ℚ
deriving DecidableEq, Repr

/-- A per-symbol daily price DataFrame: its rows, plus the optional constant
`price_drop` column that `filter_by_price_drop` assigns in place
(`none` = column absent, `some pd` = column present, constant `pd`). -/
structure PriceDF where
  rows : List PriceRow
  price_drop : Option ℚ := none
deriving DecidableEq, Repr

/-- One insider-trade record with the four fields the screener reads. -/
structure InsiderTx where
  typeOfOwner : String
  transactionType : String
  securitiesTransacted : ℚ
  securitiesOwned : ℚ
deriving DecidableEq, Repr

/-- A per-symbol insider-trade DataFrame. -/
structure TradeDF where
  rows : List InsiderTx
deriving DecidableEq, Repr

/-- The last row of a non-empty frame `r0 :: rs` (pandas `df.iloc[-1]`). -/
def lastRow (r0 : PriceRow) : List PriceRow → PriceRow
  | [] => r0
  | r :: rs => lastRow r rs

/-- The price-drop scalar of a non-empty series `r0 :: rs`:
`((first_price - last_price) / first_price) * 100` from
`CandidateFinder.filter_by_price_drop`. -/
def price_drop_of (r0 : PriceRow) (rs : List PriceRow) : ℚ :=
  ((r0.close - (lastRow r0 rs).close) / r0.close) * 100

/-! ## CandidateFinder.filter_by_price_drop

The python loop mutates each non-empty input frame
(`df['price_drop'] = price_drop`) and then keeps the symbol when
`price_drop <= price_drop_percent`.  The embedding returns the pair
(input mapping after mutation, filtered mapping); kept entries alias the
mutated frames. -/

def filter_by_price_drop :
    List (String × PriceDF) → ℚ → List (String × PriceDF) × List (String × PriceDF)
  | [], _ => ([], [])
  | (symbol, df) :: rest, price_drop_percent =>
      let restResult := filter_by_price_drop rest price_drop_percent
      match df.rows with
      | [] => ((symbol, df) :: restResult.1, restResult.2)
      | r0 :: rs =>
          let price_drop := price_drop_of r0 rs
          let df' : PriceDF := { df with price_drop := some price_drop }
          ((symbol, df') :: restResult.1,
           if price_drop ≤ price_drop_percent then (symbol, df') :: restResult.2
           else restResult.2)

/-- The filtered mapping alone (the python function's return value). -/
def filter_by_price_drop_kept (prices_dict : List (String × PriceDF))
    (price_drop_percent : ℚ) : List (String × PriceDF) :=
  (filter_by_price_drop prices_dict price_drop_percent).2

/-- The spec's description of the Price-Drop Filter's output, stated
independently of the loop: for every non-empty series compute
`(first.close - last.close) / first.close * 100` and retain exactly the
symbols whose value is `≤ threshold`, annotated with that value. -/
def priceDropSpecFilter (prices_dict : List (String × PriceDF))
    (threshold : ℚ) : List (String × PriceDF) :=
  prices_dict.filterMap fun p =>
    match p.2.rows with
    | [] => none
    | r0 :: rs =>
        let pd := price_drop_of r0 rs
        if pd ≤ threshold then some (p.1, { p.2 with price_drop := some pd })
        else none

/-! ## CandidateFinder.filter_by_ceo_buys -/

/-- The fixed qualifying predicate of the Insider-Buy Filter:
`transactionType == 'P-Purchase'` and `typeOfOwner` contains one of
CEO / CFO / COO / director case-insensitively. -/
def isCeoBuy (tx : InsiderTx) : Bool :=
  (containsCI tx.typeOfOwner "CEO" || containsCI tx.typeOfOwner "CFO" ||
   containsCI tx.typeOfOwner "COO" || containsCI tx.typeOfOwner "director") &&
  tx.transactionType == "P-Purchase"

/-- `CandidateFinder.filter_by_ceo_buys`: per symbol, keep the qualifying
transactions; drop the symbol entirely when none qualifies. -/
def filter_by_ceo_buys : List (String × TradeDF) → List (String × TradeDF)
  | [] => []
  | (symbol, df) :: rest =>
      let ceo_buys := df.rows.filter isCeoBuy
      if ceo_buys.isEmpty then filter_by_ceo_buys rest
      else (symbol, ⟨ceo_buys⟩) :: filter_by_ceo_buys rest

/-! ## CandidateFinder.find_candidates (aggregation tail) -/

/-- One pre-grouping candidate row (one per qualifying transaction). -/
structure CandRow where
  symbol : String
  ownership_change : ℚ
  price_drop : ℚ
deriving DecidableEq, Repr

/-- One aggregated output row. -/
structure Candidate where
  symbol : String
  ownership_change : ℚ
  price_drop : ℚ
deriving DecidableEq, Repr

/-- The pre-grouping rows of one symbol:
`ownership_change = securitiesTransacted / securitiesOwned * 100` per
transaction, with the symbol's series-level `price_drop` attached to every
row.  No guard excludes a zero `securitiesOwned`. -/
def ownershipRows (symbol : String) (txs : List InsiderTx) (pd : ℚ) : List CandRow :=
  txs.map fun t => ⟨symbol, t.securitiesTransacted / t.securitiesOwned * 100, pd⟩

/-- Build the concatenated pre-grouping rows from the insider-filtered
mapping, reading each symbol's `price_drop` from the price-filtered mapping
(`prices_df['price_drop'].iloc[-1]`, a constant column).  `none` models the
uncaught KeyError raised when the symbol is missing from the price-filtered
mapping, or its frame lacks the `price_drop` column, so that
`df[['symbol', 'ownership_change', 'price_drop']]` fails. -/
def buildCandidateRows (filtered_prices : List (String × PriceDF)) :
    List (String × TradeDF) → Option (List CandRow)
  | [] => some []
  | (symbol, tdf) :: rest =>
      match filtered_prices.lookup symbol with
      | none => none
      | some pdf =>
          match pdf.price_drop with
          | none => none
          | some pd =>
              match buildCandidateRows filtered_prices rest with
              | none => none
              | some restRows => some (ownershipRows symbol tdf.rows pd ++ restRows)

/-- `groupby('symbol').agg(mean).reset_index()`: one output row per distinct
symbol, keys sorted ascending, fields averaged over the group. -/
def groupMeans (rows : List CandRow) : List Candidate :=
  let keys := sortStrings (dedupKeys (rows.map (·.symbol)))
  keys.map fun k =>
    let grp := rows.filter fun r => r.symbol == k
    ⟨k, (grp.map (·.ownership_change)).sum / (grp.length : ℚ),
        (grp.map (·.price_drop)).sum / (grp.length : ℚ)⟩

/-- Outcome of one `find_candidates` run: an uncaught exception, the python
`None` return ("no candidates"), or the aggregated table. -/
inductive FindResult where
  | err : FindResult
  | noCandidates : FindResult
  | table (rows : List Candidate) : FindResult
deriving DecidableEq, Repr

/-- The insider-trade fetch restricted to the surviving symbols:
`fetch_multiple_insider_trades_by_date` called on `symbol_list` returns, in
list order, the source's data for each symbol that has any. -/
def insiderTradesFor (insider_src : List (String × TradeDF))
    (symbol_list : List String) : List (String × TradeDF) :=
  symbol_list.filterMap fun s => (insider_src.lookup s).map fun d => (s, d)

/-- The price-filtered mapping of the pipeline run. -/
def pipelineFilteredPrices (prices_dict : List (String × PriceDF))
    (threshold : ℚ) : List (String × PriceDF) :=
  filter_by_price_drop_kept prices_dict threshold

/-- The insider-filtered mapping of the pipeline run. -/
def pipelineFilteredTrades (prices_dict : List (String × PriceDF))
    (insider_src : List (String × TradeDF)) (threshold : ℚ) :
    List (String × TradeDF) :=
  filter_by_ceo_buys (insiderTradesFor insider_src
    ((pipelineFilteredPrices prices_dict threshold).map Prod.fst))

/-- `CandidateFinder.find_candidates`, as a function of the fetched data.
Returns the run's outcome and whether `candidates.csv` was written.
The python code builds the per-symbol rows first (which can raise), then
returns `None` without writing when `candidates_list` is empty, and
otherwise writes the CSV and returns the grouped table. -/
def find_candidates (prices_dict : List (String × PriceDF))
    (insider_src : List (String × TradeDF)) (threshold : ℚ) :
    FindResult × Bool :=
  let filtered_prices := pipelineFilteredPrices prices_dict threshold
  let filtered_trades := pipelineFilteredTrades prices_dict insider_src threshold
  match buildCandidateRows filtered_prices filtered_trades with
  | none => (FindResult.err, false)
  | some rows =>
      if filtered_trades.isEmpty then (FindResult.noCandidates, false)
      else (FindResult.table (groupMeans rows), true)

/-- The `__main__` guard of main.py: `plot_candidates` runs iff the returned
value is not `None` and has positive length. -/
def main_plots (prices_dict : List (String × PriceDF))
    (insider_src : List (String × TradeDF)) (threshold : ℚ) : Bool :=
  match (find_candidates prices_dict insider_src threshold).1 with
  | FindResult.table rows => !rows.isEmpty
  | _ => false

/-! ## utils/df_utils.py: standardize_ohlcv_dataframe

The normalizer is embedded at cell level.  A raw OHLCV frame is a list of
column names plus a list of rows of cells; a cell is a missing marker
(NaN/NaT), an infinity, or a finite numeric value (dates, once parsed, are
values too). -/

/-- One cell of a raw OHLCV frame. -/
inductive Cell where
  | missing : Cell
  | posInf : Cell
  | negInf : Cell
  | num (q : ℚ) : Cell
deriving DecidableEq, Repr

/-- A raw tabular record set: column names and rows of cells. -/
structure DataFrame where
  cols : List String
  rows : List (List Cell)
deriving DecidableEq, Repr

/-- Lowercase a string, character by character (python `str.lower`). -/
def strLower (s : String) : String := ⟨lowerChars s⟩

/-- The literal `rename_mapping` dict of `standardize_ohlcv_dataframe`. -/
def rename_mapping : List (String × String) :=
  [("Date", "date"), ("Datetime", "date"), ("DateTime", "date"),
   ("Time", "time"), ("Open", "open"), ("High", "high"), ("Low", "low"),
   ("Close", "close"), ("AdjClose", "adj_close"), ("Adj Close", "adj_close"),
   ("adjclose", "adj_close"), ("Volume", "volume")]

/-- `df.rename(columns=str.lower)`. -/
def renameLower (df : DataFrame) : DataFrame :=
  { df with cols := df.cols.map strLower }

/-- `df.rename(columns=rename_mapping)`: a column named exactly like a key
of the mapping is renamed to its value; all others are untouched. -/
def renameMap (df : DataFrame) : DataFrame :=
  { df with cols := df.cols.map fun c => (rename_mapping.lookup c).getD c }

/-- `pd.to_datetime(cell, errors='coerce')` on one cell: a finite value
parses to itself, anything unparsable (NaN, infinities) is coerced to the
missing marker NaT. -/
def toDatetimeCell : Cell → Cell
  | Cell.num q => Cell.num q
  | _ => Cell.missing

/-- Apply `f` to the cells of the column named `cname`, walking the column
names and one row in parallel. -/
def applyAtCol (cname : String) (f : Cell → Cell) :
    List String → List Cell → List Cell
  | _, [] => []
  | [], cs => cs
  | c :: cnames, x :: xs =>
      (if c == cname then f x else x) :: applyAtCol cname f cnames xs

/-- `if 'date' in df.columns: df['date'] = pd.to_datetime(df['date'],
errors='coerce')`. -/
def convertDate (df : DataFrame) : DataFrame :=
  if df.cols.contains "date" then
    { df with rows := df.rows.map (applyAtCol "date" toDatetimeCell df.cols) }
  else df

/-- `df.replace([np.inf, -np.inf], np.nan, inplace=True)` on one cell. -/
def replaceInfCell : Cell → Cell
  | Cell.posInf => Cell.missing
  | Cell.negInf => Cell.missing
  | c => c

/-- `df.replace([np.inf, -np.inf], np.nan, inplace=True)`. -/
def replaceInf (df : DataFrame) : DataFrame :=
  { df with rows := df.rows.map (List.map replaceInfCell) }

/-- Whether a row contains a missing marker in any column. -/
def rowHasMissing (r : List Cell) : Bool := r.any fun c => c == Cell.missing

/-- `df.dropna(inplace=True)`: drop every row containing a missing marker. -/
def dropna (df : DataFrame) : DataFrame :=
  { df with rows := df.rows.filter fun r => !(rowHasMissing r) }

/-- Forward-fill one row from the carried last-valid values (positionally,
one carry cell per column). -/
def ffillRow : List Cell → List Cell → List Cell
  | _, [] => []
  | [], x :: xs => x :: ffillRow [] xs
  | c :: cs, x :: xs =>
      (if x == Cell.missing then c else x) :: ffillRow cs xs

/-- Forward-fill the rows in order; each filled row becomes the carry for
the next one. -/
def ffillRows (carry : List Cell) : List (List Cell) → List (List Cell)
  | [] => []
  | r :: rs =>
      let r' := ffillRow carry r
      r' :: ffillRows r' rs

/-- `df.ffill(inplace=True)`. -/
def ffill (df : DataFrame) : DataFrame :=
  { df with rows := ffillRows [] df.rows }

/-- The final loop `pd.to_numeric(df[column], errors='coerce')` over the
numeric-typed columns: on a numeric column every cell (value, NaN or
infinity) is already numeric and is returned unchanged. -/
def coerceNumeric (df : DataFrame) : DataFrame :=
  { df with rows := df.rows.map (List.map fun c => c) }

/-- `standardize_ohlcv_dataframe` from utils/df_utils.py: rename columns,
parse the date column, replace infinities with NaN, drop rows with NaN,
forward-fill, coerce numeric columns — in that literal order. -/
def standardize_ohlcv_dataframe (df : DataFrame) : DataFrame :=
  coerceNumeric (ffill (dropna (replaceInf (convertDate (renameMap (renameLower df))))))

/-- The same normalizer with the forward-fill step removed (the comparison
point of the refinement claim about the ffill step). -/
def standardize_ohlcv_without_ffill (df : DataFrame) : DataFrame :=
  coerceNumeric (dropna (replaceInf (convertDate (renameMap (renameLower df)))))

/-- The canonical lowercase column names of a normalized OHLCV frame. -/
def canonicalCols : List String :=
  ["date", "open", "high", "low", "close", "adj_close", "volume"]

/-- Whether a cell is a finite numeric value (neither missing nor infinite). -/
def cellIsNum : Cell → Bool
  | Cell.num _ => true
  | _ => false

/-- Whether every cell of the frame is a finite numeric value. -/
def allNumCells (df : DataFrame) : Bool :=
  df.rows.all fun r => r.all cellIsNum

/-! ## Concrete fixtures used in the concrete statements and witnesses -/

/-- The spec's end-to-end price universe: ABC closes 100 then 70 (a 30%
decline over the window), XYZ closes 100 then 110 (a 10% rise). -/
def e2ePrices : List (String × PriceDF) :=
  [("ABC", ⟨[⟨100⟩, ⟨70⟩], none⟩), ("XYZ", ⟨[⟨100⟩, ⟨110⟩], none⟩)]

/-- The spec's end-to-end insider data: one CEO P-Purchase on ABC with
1000 securities transacted out of 10000 owned; no data for XYZ. -/
def e2eInsider : List (String × TradeDF) :=
  [("ABC", ⟨[⟨"CEO", "P-Purchase", 1000, 10000⟩]⟩)]

/-- The single insider purchase of the end-to-end scenario. -/
def ceoTx : InsiderTx := ⟨"CEO", "P-Purchase", 1000, 10000⟩

/-- Two qualifying purchases on ABC with ownership changes 5 and 15 and a
constant series-level price drop of 20, before grouping. -/
def abcTwoBuys : List CandRow :=
  ownershipRows "ABC"
    [⟨"CEO", "P-Purchase", 5, 100⟩, ⟨"CFO", "P-Purchase", 15, 100⟩] 20

/-- An already-canonical OHLCV frame: canonical lowercase column names and
one all-numeric row. -/
def canonFrame : DataFrame :=
  ⟨canonicalCols,
   [[Cell.num 1, Cell.num 2, Cell.num 3, Cell.num 4, Cell.num 5,
     Cell.num 6, Cell.num 7]]⟩

/-! # Helper lemmas -/

/-- The kept side of `filter_by_price_drop` agrees with the spec's
declarative description of the Price-Drop Filter. -/
theorem kept_eq_spec (prices : List (String × PriceDF)) (t : ℚ) :
    (filter_by_price_drop prices t).2 = priceDropSpecFilter prices t := by
  induction prices with
  | nil => rfl
  | cons p rest ih =>
      obtain ⟨sym, df⟩ := p
      cases hr : df.rows with
      | nil =>
          simp [filter_by_price_drop, priceDropSpecFilter, List.filterMap_cons, hr] at ih ⊢
          exact ih
      | cons r0 rs =>
          simp [filter_by_price_drop, priceDropSpecFilter, List.filterMap_cons, hr] at ih ⊢
          split <;> simp [ih]

/-- In an association list with pairwise distinct keys, a key determines
its value. -/
theorem nodup_key_unique {α : Type} {l : List (String × α)}
    (hnd : (l.map Prod.fst).Nodup) {s : String} {a b : α}
    (ha : (s, a) ∈ l) (hb : (s, b) ∈ l) : a = b := by
  induction l with
  | nil => simp at ha
  | cons p rest ih =>
      obtain ⟨p1, p2⟩ := p
      simp only [List.map_cons, List.nodup_cons] at hnd
      rcases List.mem_cons.mp ha with h1 | h1 <;> rcases List.mem_cons.mp hb with h2 | h2
      · exact (Prod.mk.inj h1).2.trans (Prod.mk.inj h2).2.symm
      · exfalso; apply hnd.1
        have hs : s = p1 := (Prod.mk.inj h1).1
        subst hs
        exact List.mem_map.mpr ⟨(s, b), h2, rfl⟩
      · exfalso; apply hnd.1
        have hs : s = p1 := (Prod.mk.inj h2).1
        subst hs
        exact List.mem_map.mpr ⟨(s, a), h1, rfl⟩
      · exact ih hnd.2 h1 h2

/-- Every transaction retained by `filter_by_ceo_buys` satisfies the
qualifying predicate. -/
theorem ceo_buys_retained_qualify (trades : List (String × TradeDF)) (sym : String)
    (tdfK : TradeDF) (hmem : (sym, tdfK) ∈ filter_by_ceo_buys trades) :
    ∀ tx ∈ tdfK.rows, isCeoBuy tx = true := by
  induction trades with
  | nil => simp [filter_by_ceo_buys] at hmem
  | cons p rest ih =>
      obtain ⟨s0, d0⟩ := p
      simp only [filter_by_ceo_buys] at hmem
      by_cases he : (d0.rows.filter isCeoBuy).isEmpty
      · rw [if_pos he] at hmem
        exact ih hmem
      · rw [if_neg he] at hmem
        rcases List.mem_cons.mp hmem with h1 | h1
        · have : tdfK = ⟨d0.rows.filter isCeoBuy⟩ := (Prod.mk.inj h1).2
          subst this
          intro tx htx
          exact (List.mem_filter.mp htx).2
        · exact ih h1

/-- A symbol with at least one qualifying transaction survives
`filter_by_ceo_buys`. -/
theorem ceo_buys_qualifying_symbol_kept (trades : List (String × TradeDF)) (sym : String)
    (tdf : TradeDF) (hmem : (sym, tdf) ∈ trades)
    (hq : ∃ tx ∈ tdf.rows, isCeoBuy tx = true) :
    sym ∈ (filter_by_ceo_buys trades).map Prod.fst := by
  induction trades with
  | nil => simp at hmem
  | cons p rest ih =>
      obtain ⟨s0, d0⟩ := p
      simp only [filter_by_ceo_buys]
      rcases List.mem_cons.mp hmem with h1 | h1
      · obtain ⟨hs, hd⟩ := Prod.mk.inj h1
        subst hs; subst hd
        obtain ⟨tx, htx, hbuy⟩ := hq
        by_cases he : (tdf.rows.filter isCeoBuy).isEmpty
        · exfalso
          have hnil := List.isEmpty_iff.mp he
          have hmf : tx ∈ tdf.rows.filter isCeoBuy := List.mem_filter.mpr ⟨htx, hbuy⟩
          rw [hnil] at hmf
          simp at hmf
        · rw [if_neg he]
          simp
      · by_cases he : (d0.rows.filter isCeoBuy).isEmpty
        · rw [if_pos he]; exact ih h1
        · rw [if_neg he]
          simp only [List.map_cons]
          exact List.mem_cons_of_mem _ (ih h1)

/-- A symbol surviving `filter_by_ceo_buys` has at least one qualifying
transaction in its input frame. -/
theorem ceo_buys_kept_symbol_qualifies (trades : List (String × TradeDF)) (sym : String)
    (hin : sym ∈ (filter_by_ceo_buys trades).map Prod.fst) :
    ∃ tdf, (sym, tdf) ∈ trades ∧ ∃ tx ∈ tdf.rows, isCeoBuy tx = true := by
  induction trades with
  | nil => simp [filter_by_ceo_buys] at hin
  | cons p rest ih =>
      obtain ⟨s0, d0⟩ := p
      simp only [filter_by_ceo_buys] at hin
      by_cases he : (d0.rows.filter isCeoBuy).isEmpty
      · rw [if_pos he] at hin
        obtain ⟨tdf, h1, h2⟩ := ih hin
        exact ⟨tdf, List.mem_cons_of_mem _ h1, h2⟩
      · rw [if_neg he] at hin
        simp only [List.map_cons, List.mem_cons] at hin
        rcases hin with h1 | h1
        · subst h1
          obtain ⟨tx, htx⟩ := List.exists_mem_of_ne_nil _ (by
            intro hnil
            rw [List.isEmpty_iff] at he
            exact he hnil)
          refine ⟨d0, List.mem_cons_self _ _, tx, (List.mem_filter.mp htx).1,
            (List.mem_filter.mp htx).2⟩
        · obtain ⟨tdf, hh1, hh2⟩ := ih h1
          exact ⟨tdf, List.mem_cons_of_mem _ hh1, hh2⟩

/-- Every qualifying transaction of an input symbol is retained by
`filter_by_ceo_buys`, in that symbol's output frame. -/
theorem ceo_buys_qualifying_tx_kept (trades : List (String × TradeDF)) (sym : String)
    (tdf : TradeDF) (tx : InsiderTx) (hmem : (sym, tdf) ∈ trades)
    (htx : tx ∈ tdf.rows) (hq : isCeoBuy tx = true) :
    ∃ tdfK, (sym, tdfK) ∈ filter_by_ceo_buys trades ∧ tx ∈ tdfK.rows := by
  induction trades with
  | nil => simp at hmem
  | cons p rest ih =>
      obtain ⟨s0, d0⟩ := p
      simp only [filter_by_ceo_buys]
      rcases List.mem_cons.mp hmem with h1 | h1
      · obtain ⟨hs, hd⟩ := Prod.mk.inj h1
        subst hs; subst hd
        have hmf : tx ∈ tdf.rows.filter isCeoBuy := List.mem_filter.mpr ⟨htx, hq⟩
        by_cases he : (tdf.rows.filter isCeoBuy).isEmpty
        · exfalso
          rw [List.isEmpty_iff.mp he] at hmf
          simp at hmf
        · rw [if_neg he]
          exact ⟨⟨tdf.rows.filter isCeoBuy⟩, List.mem_cons_self _ _, hmf⟩
      · obtain ⟨tdfK, hk1, hk2⟩ := ih h1
        by_cases he : (d0.rows.filter isCeoBuy).isEmpty
        · rw [if_pos he]
          exact ⟨tdfK, hk1, hk2⟩
        · rw [if_neg he]
          exact ⟨tdfK, List.mem_cons_of_mem _ hk1, hk2⟩

/-- Membership in an insertion-sorted list. -/
theorem mem_insertSorted (a s : String) (l : List String) :
    a ∈ insertSorted s l ↔ a = s ∨ a ∈ l := by
  induction l with
  | nil => simp [insertSorted]
  | cons t ts ih =>
      simp only [insertSorted]
      by_cases h : strLt s t
      · rw [if_pos h]; simp
      · rw [if_neg h]
        simp [ih]
        tauto

/-- Insertion into a duplicate-free list of a fresh element stays
duplicate-free. -/
theorem nodup_insertSorted (s : String) (l : List String)
    (hs : s ∉ l) (hl : l.Nodup) : (insertSorted s l).Nodup := by
  induction l with
  | nil => simp [insertSorted]
  | cons t ts ih =>
      simp only [insertSorted]
      by_cases h : strLt s t
      · rw [if_pos h]
        exact List.nodup_cons.mpr ⟨hs, hl⟩
      · rw [if_neg h]
        rw [List.nodup_cons] at hl
        refine List.nodup_cons.mpr ⟨?_, ?_⟩
        · intro hmem
          rcases (mem_insertSorted t s ts).mp hmem with h1 | h1
          · exact hs (h1 ▸ List.mem_cons_self t ts)
          · exact hl.1 h1
        · exact ih (fun hm => hs (List.mem_cons_of_mem t hm)) hl.2

/-- Sorting preserves membership. -/
theorem mem_sortStrings (a : String) (l : List String) :
    a ∈ sortStrings l ↔ a ∈ l := by
  induction l with
  | nil => simp [sortStrings]
  | cons s t ih =>
      simp only [sortStrings]
      rw [mem_insertSorted]
      simp [ih]

/-- Sorting preserves freedom from duplicates. -/
theorem nodup_sortStrings (l : List String) (h : l.Nodup) :
    (sortStrings l).Nodup := by
  induction l with
  | nil => simp [sortStrings]
  | cons s t ih =>
      rw [List.nodup_cons] at h
      exact nodup_insertSorted s (sortStrings t)
        (fun hm => h.1 ((mem_sortStrings s t).mp hm)) (ih h.2)

/-- Membership in the deduplicated list. -/
theorem mem_dedupAux (a : String) (seen l : List String) :
    a ∈ dedupAux seen l ↔ a ∈ l ∧ a ∉ seen := by
  induction l generalizing seen with
  | nil => simp [dedupAux]
  | cons s t ih =>
      simp only [dedupAux]
      by_cases h : seen.contains s
      · rw [if_pos h]
        rw [ih]
        have hs : s ∈ seen := by simpa using h
        constructor
        · rintro ⟨h1, h2⟩
          exact ⟨List.mem_cons_of_mem s h1, h2⟩
        · rintro ⟨h1, h2⟩
          rcases List.mem_cons.mp h1 with rfl | h1
          · exact absurd hs h2
          · exact ⟨h1, h2⟩
      · rw [if_neg h]
        have hs : s ∉ seen := by simpa using h
        simp only [List.mem_cons, ih]
        constructor
        · rintro (rfl | ⟨h1, h2⟩)
          · exact ⟨Or.inl rfl, hs⟩
          · exact ⟨Or.inr h1, fun hm => h2 (Or.inr hm)⟩
        · rintro ⟨rfl | h1, h2⟩
          · exact Or.inl rfl
          · by_cases has : a = s
            · exact Or.inl has
            · exact Or.inr ⟨h1, by simp [has, h2]⟩

/-- Deduplication produces a duplicate-free list. -/
theorem nodup_dedupAux (seen l : List String) : (dedupAux seen l).Nodup := by
  induction l generalizing seen with
  | nil => simp [dedupAux]
  | cons s t ih =>
      simp only [dedupAux]
      by_cases h : seen.contains s
      · rw [if_pos h]; exact ih seen
      · rw [if_neg h]
        refine List.nodup_cons.mpr ⟨?_, ih (s :: seen)⟩
        intro hm
        exact ((mem_dedupAux s (s :: seen) t).mp hm).2 (List.mem_cons_self s seen)

/-- The symbols of rows built from a key list are exactly the keys. -/
theorem map_mk_symbol (g h : String → ℚ) (keys : List String) :
    (keys.map fun k => (⟨k, g k, h k⟩ : Candidate)).map (·.symbol) = keys := by
  induction keys with
  | nil => rfl
  | cons k ks ih => simp [ih]

/-- The symbols of the aggregated table are the sorted distinct input
symbols. -/
theorem groupMeans_symbols (rows : List CandRow) :
    (groupMeans rows).map (·.symbol) = sortStrings (dedupKeys (rows.map (·.symbol))) := by
  simp only [groupMeans]
  exact map_mk_symbol _ _ _

/-- Mapping a function that fixes every element of a list is the
identity. -/
theorem map_fixed {α : Type} (f : α → α) (l : List α) (h : ∀ a ∈ l, f a = a) :
    l.map f = l := by
  induction l with
  | nil => rfl
  | cons x xs ih =>
      rw [List.map_cons, h x (List.mem_cons_self x xs),
        ih fun a ha => h a (List.mem_cons_of_mem x ha)]

/-- Date coercion fixes finite numeric cells. -/
theorem toDatetimeCell_of_num (c : Cell) (h : cellIsNum c = true) :
    toDatetimeCell c = c := by
  cases c <;> first | rfl | simp [cellIsNum] at h

/-- Infinity replacement fixes finite numeric cells. -/
theorem replaceInfCell_of_num (c : Cell) (h : cellIsNum c = true) :
    replaceInfCell c = c := by
  cases c <;> first | rfl | simp [cellIsNum] at h

/-- Date coercion of a column fixes rows of finite numeric cells. -/
theorem applyAtCol_of_num (cname : String) (cols : List String) (r : List Cell)
    (h : ∀ c ∈ r, cellIsNum c = true) :
    applyAtCol cname toDatetimeCell cols r = r := by
  induction cols generalizing r with
  | nil => cases r <;> rfl
  | cons c cs ih =>
      cases r with
      | nil => rfl
      | cons x xs =>
          simp only [applyAtCol]
          rw [ih xs fun a ha => h a (List.mem_cons_of_mem x ha)]
          by_cases hc : c == cname
          · rw [if_pos hc, toDatetimeCell_of_num x (h x (List.mem_cons_self x xs))]
          · rw [if_neg hc]

/-- A row of finite numeric cells has no missing marker. -/
theorem rowHasMissing_of_num (r : List Cell) (h : ∀ c ∈ r, cellIsNum c = true) :
    rowHasMissing r = false := by
  induction r with
  | nil => rfl
  | cons x xs ih =>
      have hx := h x (List.mem_cons_self x xs)
      have hxs := ih fun c hc => h c (List.mem_cons_of_mem x hc)
      simp only [rowHasMissing, List.any_cons] at hxs ⊢
      rw [hxs, Bool.or_false]
      cases x <;> simp [cellIsNum] at hx ⊢

/-- The numeric-coercion pass changes nothing in the cell model. -/
theorem coerceNumeric_id (d : DataFrame) : coerceNumeric d = d := by
  obtain ⟨cols, rows⟩ := d
  simp [coerceNumeric]

/-- Forward-filling a row without missing markers changes nothing. -/
theorem ffillRow_of_no_missing (carry r : List Cell) (h : rowHasMissing r = false) :
    ffillRow carry r = r := by
  induction r generalizing carry with
  | nil => cases carry <;> rfl
  | cons x xs ih =>
      simp only [rowHasMissing, List.any_cons, Bool.or_eq_false_iff] at h
      have hx : (x == Cell.missing) = false := h.1
      have hxs : rowHasMissing xs = false := by
        simp [rowHasMissing, h.2]
      cases carry with
      | nil =>
          simp only [ffillRow]
          rw [ih [] hxs]
      | cons c cs =>
          simp only [ffillRow, hx]
          rw [ih cs hxs]
          simp

/-- Forward-filling rows without missing markers changes nothing. -/
theorem ffillRows_of_no_missing (carry : List Cell) (rows : List (List Cell))
    (h : ∀ r ∈ rows, rowHasMissing r = false) :
    ffillRows carry rows = rows := by
  induction rows generalizing carry with
  | nil => rfl
  | cons r rs ih =>
      simp only [ffillRows]
      rw [ffillRow_of_no_missing carry r (h r (List.mem_cons_self r rs))]
      rw [ih r fun x hx => h x (List.mem_cons_of_mem r hx)]

/-- After `dropna`, the forward-fill pass changes nothing. -/
theorem ffill_dropna (d : DataFrame) : ffill (dropna d) = dropna d := by
  simp only [ffill, dropna]
  congr 1
  apply ffillRows_of_no_missing
  intro r hr
  have := (List.mem_filter.mp hr).2
  simpa using this

/-- The normalizer fixes an already-canonical all-numeric frame. -/
theorem standardize_canonical_fixed (df : DataFrame) (hc : df.cols = canonicalCols)
    (hn : allNumCells df = true) : standardize_ohlcv_dataframe df = df := by
  obtain ⟨cols, rows⟩ := df
  simp only at hc
  subst hc
  simp only [allNumCells, List.all_eq_true] at hn
  unfold standardize_ohlcv_dataframe
  have h1 : renameLower ⟨canonicalCols, rows⟩ = ⟨canonicalCols, rows⟩ := by
    simp only [renameLower]
    congr 1
  rw [h1]
  have h2 : renameMap ⟨canonicalCols, rows⟩ = ⟨canonicalCols, rows⟩ := by
    simp only [renameMap]
    congr 1
  rw [h2]
  have h3 : convertDate ⟨canonicalCols, rows⟩ = ⟨canonicalCols, rows⟩ := by
    simp only [convertDate]
    rw [if_pos (by decide)]
    congr 1
    exact map_fixed _ rows fun r hr => applyAtCol_of_num _ _ r (hn r hr)
  rw [h3]
  have h4 : replaceInf ⟨canonicalCols, rows⟩ = ⟨canonicalCols, rows⟩ := by
    simp only [replaceInf]
    congr 1
    exact map_fixed _ rows fun r hr =>
      map_fixed _ r fun c hcm => replaceInfCell_of_num c (hn r hr c hcm)
  rw [h4]
  have h5 : dropna ⟨canonicalCols, rows⟩ = ⟨canonicalCols, rows⟩ := by
    simp only [dropna]
    congr 1
    apply List.filter_eq_self.mpr
    intro r hr
    simp [rowHasMissing_of_num r (hn r hr)]
  rw [h5]
  have h6 : ffill ⟨canonicalCols, rows⟩ = ⟨canonicalCols, rows⟩ := by
    simp only [ffill]
    congr 1
    exact ffillRows_of_no_missing [] rows fun r hr => rowHasMissing_of_num r (hn r hr)
  rw [h6]
  exact coerceNumeric_id _

/-! # Claim theorems -/

/-- C1 (amended): the Price-Drop Filter computes, for every non-empty
series, `price_drop_percent = (first.close - last.close) / first.close * 100`
and retains exactly the symbols with `price_drop_percent <= threshold`
(annotated with that value); for a series 100 → 80 at threshold -10 the
symbol is excluded (20 is not <= -10); but a series whose close rises yields
a negative `price_drop_percent` and is retained whenever that value is
<= threshold — a rise 100 → 120 at threshold -10 is retained, so a rise does
not always fail. -/
theorem price_drop_filter_characterization :
    (∀ (prices_dict : List (String × PriceDF)) (threshold : ℚ),
        (filter_by_price_drop prices_dict threshold).2 =
          priceDropSpecFilter prices_dict threshold)
    ∧ (filter_by_price_drop [("S", ⟨[⟨100⟩, ⟨80⟩], none⟩)] (-10)).2 = []
    ∧ (filter_by_price_drop [("R", ⟨[⟨100⟩, ⟨120⟩], none⟩)] (-10)).2.map Prod.fst
        = ["R"] := by
  refine ⟨kept_eq_spec, ?_, ?_⟩
  · norm_num [filter_by_price_drop, price_drop_of, lastRow]
  · norm_num [filter_by_price_drop, price_drop_of, lastRow]

/-- C1 (counterexample): against the claim's "a series whose close rises
over the window always fails the filter", a series rising 100 → 120 has
`price_drop = -20 <= -10` and is retained at threshold -10. -/
theorem price_drop_rising_series_retained :
    "R" ∈ (filter_by_price_drop [("R", ⟨[⟨100⟩, ⟨120⟩], none⟩)] (-10)).2.map Prod.fst := by
  norm_num [filter_by_price_drop, price_drop_of, lastRow]

/-- C2 (code evaluated at the failing input): on the spec's end-to-end
scenario at threshold -10, the price filter keeps the rising XYZ and drops
the falling ABC, so the pipeline finds no insider buys and returns the
"no candidates" signal with no CSV written — not the expected single ABC
candidate row. -/
theorem e2e_scenario_yields_no_candidates :
    find_candidates e2ePrices e2eInsider (-10) = (FindResult.noCandidates, false)
    ∧ (pipelineFilteredPrices e2ePrices (-10)).map Prod.fst = ["XYZ"] := by
  constructor
  · norm_num [find_candidates, pipelineFilteredPrices, pipelineFilteredTrades,
      filter_by_price_drop_kept, filter_by_price_drop, price_drop_of, lastRow,
      insiderTradesFor, filter_by_ceo_buys, buildCandidateRows, e2ePrices, e2eInsider,
      List.lookup]
  · norm_num [pipelineFilteredPrices, filter_by_price_drop_kept, filter_by_price_drop,
      price_drop_of, lastRow, e2ePrices]

/-- C3: the Insider-Buy Filter retains a transaction if and only if its
`transactionType` is "P-Purchase" and its `typeOfOwner` case-insensitively
contains CEO, CFO, COO or director: every retained transaction satisfies
the predicate, and every qualifying transaction of an input symbol is
retained in that symbol's output frame; a symbol appears in the output iff
it has at least one such transaction; "Senior Director of Engineering" with
"P-Purchase" matches, "Vice President" with "P-Purchase" does not, "CEO"
with "S-Sale" does not. -/
theorem insider_buy_filter_characterization :
    (∀ (trades : List (String × TradeDF)) (sym : String) (tdfK : TradeDF),
        (sym, tdfK) ∈ filter_by_ceo_buys trades → ∀ tx ∈ tdfK.rows, isCeoBuy tx = true)
    ∧ (∀ (trades : List (String × TradeDF)) (sym : String) (tdf : TradeDF)
        (tx : InsiderTx), (sym, tdf) ∈ trades → tx ∈ tdf.rows → isCeoBuy tx = true →
        ∃ tdfK, (sym, tdfK) ∈ filter_by_ceo_buys trades ∧ tx ∈ tdfK.rows)
    ∧ (∀ (trades : List (String × TradeDF)) (sym : String) (tdf : TradeDF),
        (sym, tdf) ∈ trades → (∃ tx ∈ tdf.rows, isCeoBuy tx = true) →
        sym ∈ (filter_by_ceo_buys trades).map Prod.fst)
    ∧ (∀ (trades : List (String × TradeDF)) (sym : String),
        sym ∈ (filter_by_ceo_buys trades).map Prod.fst →
        ∃ tdf, (sym, tdf) ∈ trades ∧ ∃ tx ∈ tdf.rows, isCeoBuy tx = true)
    ∧ isCeoBuy ⟨"Senior Director of Engineering", "P-Purchase", 0, 0⟩ = true
    ∧ isCeoBuy ⟨"Vice President", "P-Purchase", 0, 0⟩ = false
    ∧ isCeoBuy ⟨"CEO", "S-Sale", 0, 0⟩ = false := by
  refine ⟨ceo_buys_retained_qualify, ceo_buys_qualifying_tx_kept,
    ceo_buys_qualifying_symbol_kept, ceo_buys_kept_symbol_qualifies, ?_, ?_, ?_⟩ <;> decide

/-- C3 (witness): the characterization applied to a one-symbol mapping whose
only transaction is a director P-Purchase: the symbol survives and the
qualifying transaction itself is retained. -/
theorem insider_buy_filter_characterization_witness :
    ("ABC" ∈ (filter_by_ceo_buys
      [("ABC", ⟨[⟨"Senior Director of Engineering", "P-Purchase", 100, 1000⟩]⟩)]).map
        Prod.fst)
    ∧ ∃ tdfK, ("ABC", tdfK) ∈ filter_by_ceo_buys
        [("ABC", ⟨[⟨"Senior Director of Engineering", "P-Purchase", 100, 1000⟩]⟩)]
      ∧ (⟨"Senior Director of Engineering", "P-Purchase", 100, 1000⟩ : InsiderTx)
          ∈ tdfK.rows :=
  ⟨insider_buy_filter_characterization.2.2.1 _ "ABC"
    ⟨[⟨"Senior Director of Engineering", "P-Purchase", 100, 1000⟩]⟩
    (List.mem_cons_self _ _)
    ⟨⟨"Senior Director of Engineering", "P-Purchase", 100, 1000⟩,
      List.mem_cons_self _ _, by decide⟩,
   insider_buy_filter_characterization.2.1 _ "ABC"
    ⟨[⟨"Senior Director of Engineering", "P-Purchase", 100, 1000⟩]⟩
    ⟨"Senior Director of Engineering", "P-Purchase", 100, 1000⟩
    (List.mem_cons_self _ _) (List.mem_cons_self _ _) (by decide)⟩

/-- C4: the aggregator produces exactly one row per surviving symbol (its
symbol list is duplicate-free and carries exactly the input symbols), each
row's `ownership_change` and `price_drop` are the arithmetic means over that
symbol's rows, the pre-grouping rows carry
`securitiesTransacted / securitiesOwned * 100` per transaction, and on two
qualifying ABC transactions with ownership changes 5 and 15 and constant
price drop 20 the output is the single row (ABC, 10, 20). -/
theorem aggregator_one_row_per_symbol_means :
    (∀ rows : List CandRow, ((groupMeans rows).map (·.symbol)).Nodup)
    ∧ (∀ (rows : List CandRow) (sym : String),
        sym ∈ (groupMeans rows).map (·.symbol) ↔ sym ∈ rows.map (·.symbol))
    ∧ (∀ (rows : List CandRow) (c : Candidate), c ∈ groupMeans rows →
        c.ownership_change =
          ((rows.filter fun r => r.symbol == c.symbol).map (·.ownership_change)).sum /
            ((rows.filter fun r => r.symbol == c.symbol).length : ℚ)
        ∧ c.price_drop =
          ((rows.filter fun r => r.symbol == c.symbol).map (·.price_drop)).sum /
            ((rows.filter fun r => r.symbol == c.symbol).length : ℚ))
    ∧ (∀ (sym : String) (txs : List InsiderTx) (pd : ℚ),
        (ownershipRows sym txs pd).map (·.ownership_change) =
          txs.map fun t => t.securitiesTransacted / t.securitiesOwned * 100)
    ∧ groupMeans abcTwoBuys = [⟨"ABC", 10, 20⟩] := by
  refine ⟨?_, ?_, ?_, ?_, ?_⟩
  · intro rows
    rw [groupMeans_symbols]
    exact nodup_sortStrings _ (nodup_dedupAux [] _)
  · intro rows sym
    rw [groupMeans_symbols, mem_sortStrings, dedupKeys, mem_dedupAux]
    simp
  · intro rows c hc
    simp only [groupMeans, List.mem_map] at hc
    obtain ⟨k, hk, hck⟩ := hc
    subst hck
    exact ⟨rfl, rfl⟩
  · intro sym txs pd
    induction txs with
    | nil => rfl
    | cons t ts ih => simp [ownershipRows] at ih ⊢
  · norm_num [groupMeans, abcTwoBuys, ownershipRows, dedupKeys, dedupAux,
      sortStrings, insertSorted, strLt, charsLt]

/-- C4 (witness): the mean characterization applied to the concrete
two-transaction ABC instance. -/
theorem aggregator_one_row_per_symbol_means_witness :
    (⟨"ABC", 10, 20⟩ : Candidate).ownership_change =
      ((abcTwoBuys.filter fun r =>
          r.symbol == (⟨"ABC", 10, 20⟩ : Candidate).symbol).map (·.ownership_change)).sum /
        ((abcTwoBuys.filter fun r =>
          r.symbol == (⟨"ABC", 10, 20⟩ : Candidate).symbol).length : ℚ)
    ∧ (⟨"ABC", 10, 20⟩ : Candidate).price_drop =
      ((abcTwoBuys.filter fun r =>
          r.symbol == (⟨"ABC", 10, 20⟩ : Candidate).symbol).map (·.price_drop)).sum /
        ((abcTwoBuys.filter fun r =>
          r.symbol == (⟨"ABC", 10, 20⟩ : Candidate).symbol).length : ℚ) :=
  aggregator_one_row_per_symbol_means.2.2.1 abcTwoBuys ⟨"ABC", 10, 20⟩
    (by norm_num [groupMeans, abcTwoBuys, ownershipRows, dedupKeys, dedupAux,
      sortStrings, insertSorted, strLt, charsLt])

/-- C5: when zero symbols survive the Insider-Buy Filter, the pipeline
returns the python `None` ("no candidates" signal, a value distinct from any
table — in particular from the empty table), writes no CSV, and main.py
performs no plotting call. -/
theorem no_candidates_short_circuit :
    ∀ (prices_dict : List (String × PriceDF)) (insider_src : List (String × TradeDF))
      (threshold : ℚ),
      pipelineFilteredTrades prices_dict insider_src threshold = [] →
      find_candidates prices_dict insider_src threshold = (FindResult.noCandidates, false)
      ∧ main_plots prices_dict insider_src threshold = false
      ∧ ∀ rows : List Candidate, FindResult.noCandidates ≠ FindResult.table rows := by
  intro prices_dict insider_src threshold h
  have h1 : find_candidates prices_dict insider_src threshold =
      (FindResult.noCandidates, false) := by
    simp [find_candidates, h, buildCandidateRows]
  refine ⟨h1, ?_, ?_⟩
  · simp [main_plots, h1]
  · intro rows
    simp

/-- C5 (witness): the short-circuit applied to the empty run. -/
theorem no_candidates_short_circuit_witness :
    pipelineFilteredTrades [] [] 0 = []
    ∧ (find_candidates [] [] 0 = (FindResult.noCandidates, false)
       ∧ main_plots [] [] 0 = false
       ∧ ∀ rows : List Candidate, FindResult.noCandidates ≠ FindResult.table rows) :=
  ⟨rfl, no_candidates_short_circuit [] [] 0 rfl⟩

/-- C6 (counterexample): against the claim that the Price-Drop Filter leaves
the mappings and series it receives unchanged, the input mapping returned
for a failing series 100 → 80 at threshold -10 differs from the original:
the frame has acquired `price_drop = 20` even though the symbol fails the
filter. -/
theorem price_drop_filter_mutates_failing_series :
    (filter_by_price_drop [("F", ⟨[⟨100⟩, ⟨80⟩], none⟩)] (-10)).1
      ≠ [("F", ⟨[⟨100⟩, ⟨80⟩], none⟩)]
    ∧ (filter_by_price_drop [("F", ⟨[⟨100⟩, ⟨80⟩], none⟩)] (-10)).2 = [] := by
  constructor
  · norm_num [filter_by_price_drop, price_drop_of, lastRow]
    simp
  · norm_num [filter_by_price_drop, price_drop_of, lastRow]

/-- C6 (amended): the Price-Drop Filter does not leave its input unchanged:
it sets the `price_drop` attribute on every non-empty series it receives —
including the series of symbols that fail the filter — while preserving
every series' row data and leaving empty series untouched. -/
theorem price_drop_filter_mutation_characterization :
    ∀ (prices_dict : List (String × PriceDF)) (threshold : ℚ),
      (filter_by_price_drop prices_dict threshold).1 =
        prices_dict.map fun p =>
          match p.2.rows with
          | [] => p
          | r0 :: rs => (p.1, { p.2 with price_drop := some (price_drop_of r0 rs) }) := by
  intro prices_dict threshold
  induction prices_dict with
  | nil => rfl
  | cons p rest ih =>
      obtain ⟨sym, df⟩ := p
      cases hr : df.rows with
      | nil => simp [filter_by_price_drop, hr, ih]
      | cons r0 rs => simp [filter_by_price_drop, hr, ih]

/-- C7: in the normalizer the forward-fill step, executed after
replace-infinities and drop-rows-with-missing, is a no-op: the normalizer
equals the same normalizer with the forward-fill step removed, on every
input record set. -/
theorem ffill_step_is_noop :
    ∀ df : DataFrame, standardize_ohlcv_dataframe df = standardize_ohlcv_without_ffill df := by
  intro df
  unfold standardize_ohlcv_dataframe standardize_ohlcv_without_ffill
  rw [ffill_dropna]

/-- C8: the normalizer is idempotent on already-canonical data: on a frame
whose column names are the canonical lowercase names and whose cells are all
finite numeric values, applying it twice equals applying it once. -/
theorem normalizer_idempotent_on_canonical :
    ∀ df : DataFrame, df.cols = canonicalCols → allNumCells df = true →
      standardize_ohlcv_dataframe (standardize_ohlcv_dataframe df) =
        standardize_ohlcv_dataframe df := by
  intro df hc hn
  simp only [standardize_canonical_fixed df hc hn]

/-- C8 (witness): idempotence at the concrete canonical one-row frame. -/
theorem normalizer_idempotent_on_canonical_witness :
    standardize_ohlcv_dataframe (standardize_ohlcv_dataframe canonFrame) =
      standardize_ohlcv_dataframe canonFrame :=
  normalizer_idempotent_on_canonical canonFrame rfl (by decide)

/-- C9: for every input mapping with pairwise distinct symbols, a symbol
whose series is empty is excluded from the Price-Drop Filter's output; the
embedding is total, the first/last close reads being guarded by the
non-emptiness test exactly as in the source. -/
theorem empty_series_excluded :
    ∀ (prices_dict : List (String × PriceDF)) (threshold : ℚ)
      (sym : String) (df : PriceDF),
      (prices_dict.map Prod.fst).Nodup → (sym, df) ∈ prices_dict → df.rows = [] →
      sym ∉ (filter_by_price_drop prices_dict threshold).2.map Prod.fst := by
  intro prices_dict threshold sym df hnd hmem hempty hin
  rw [kept_eq_spec] at hin
  obtain ⟨⟨s1, d1⟩, hd1, hfst⟩ := List.mem_map.mp hin
  obtain ⟨⟨ps, pdf⟩, hpmem, hf⟩ := List.mem_filterMap.mp hd1
  simp only at hfst
  subst hfst
  cases hrows : pdf.rows with
  | nil => simp [priceDropSpecFilter, hrows] at hf
  | cons r0 rs =>
      simp only [priceDropSpecFilter] at hf
      rw [hrows] at hf
      by_cases hc : price_drop_of r0 rs ≤ threshold
      · simp only [hc, if_pos, Option.some.injEq] at hf
        have hps : ps = s1 := (Prod.mk.inj hf).1
        subst hps
        have hpdf : pdf = df := nodup_key_unique hnd hpmem hmem
        rw [hpdf, hempty] at hrows
        exact List.noConfusion hrows
      · simp [hc] at hf

/-- C9 (witness): the exclusion applied to a one-symbol mapping with an
empty series. -/
theorem empty_series_excluded_witness :
    "E" ∉ (filter_by_price_drop [("E", ⟨[], none⟩)] 0).2.map Prod.fst :=
  empty_series_excluded [("E", ⟨[], none⟩)] 0 "E" ⟨[], none⟩ (by decide)
    (List.mem_cons_self _ _) rfl

/-- C10: the aggregator's ownership-change computation has no guard for a
zero denominator — every transaction contributes a row, zero
`securitiesOwned` or not — and under the precondition
`securitiesOwned ≠ 0` the computed ratio is the genuine solution of its
defining equation, so every `ownership_change` value is well-defined. -/
theorem ownership_change_unguarded_division :
    (∀ (sym : String) (txs : List InsiderTx) (pd : ℚ),
        (ownershipRows sym txs pd).length = txs.length)
    ∧ (∀ (sym : String) (txs : List InsiderTx) (pd : ℚ) (tx : InsiderTx), tx ∈ txs →
        (⟨sym, tx.securitiesTransacted / tx.securitiesOwned * 100, pd⟩ : CandRow) ∈
          ownershipRows sym txs pd)
    ∧ (∀ tx : InsiderTx, tx.securitiesOwned ≠ 0 →
        tx.securitiesTransacted / tx.securitiesOwned * 100 * tx.securitiesOwned =
          tx.securitiesTransacted * 100) := by
  refine ⟨?_, ?_, ?_⟩
  · intro sym txs pd
    simp [ownershipRows]
  · intro sym txs pd tx htx
    exact List.mem_map_of_mem _ htx
  · intro tx h
    field_simp

/-- C10 (witness): both parts applied to the scenario's CEO purchase, whose
denominator 10000 is non-zero, and to a zero-denominator transaction that is
still counted. -/
theorem ownership_change_unguarded_division_witness :
    (ownershipRows "ABC" [ceoTx] 20).length = 1
    ∧ (ownershipRows "Z" [⟨"CEO", "P-Purchase", 5, 0⟩] 0).length = 1
    ∧ ceoTx.securitiesTransacted / ceoTx.securitiesOwned * 100 * ceoTx.securitiesOwned =
        ceoTx.securitiesTransacted * 100 :=
  ⟨ownership_change_unguarded_division.1 "ABC" [ceoTx] 20,
   ownership_change_unguarded_division.1 "Z" [⟨"CEO", "P-Purchase", 5, 0⟩] 0,
   ownership_change_unguarded_division.2.2 ceoTx (by norm_num [ceoTx])⟩

end CeoBuys
